import Mathlib

/-!  Verification of the ensemble-optimization core of PET:
`popt/loop/ensemble_gaussian.py` (class `GaussianEnsemble`) and
`popt/update_schemes/linesearch.py` (class `LineSearch`), shallowly embedded
over exact rationals (deterministic arithmetic) and reals (the importance
weights, which use the exponential).  Random draws (the Gaussian ensemble,
`np.random.choice`) and the external simulator are modelled as oracle inputs:
every theorem quantifies over them.  -/

namespace PET

/-- Vectors over the flattened control dimension. -/
abbrev Vec (K : Type) (nx : ℕ) := Fin nx → K

/-- Square matrices over the flattened control dimension. -/
abbrev Mat (K : Type) (nx : ℕ) := Fin nx → Fin nx → K

/-- Rounding to the nearest integer with ties to even, the behaviour of `np.round`. -/
def npRound (q : ℚ) : ℤ :=
  if q - ⌊q⌋ < 1 / 2 then ⌊q⌋
  else if 1 / 2 < q - ⌊q⌋ then ⌊q⌋ + 1
  else if 2 ∣ ⌊q⌋ then ⌊q⌋ else ⌊q⌋ + 1

/-- Mean of the columns of an ensemble matrix, `state_ens.mean(1)`
(ensemble_gaussian.py lines 169 and 235). -/
def colMean {K : Type} [DivisionRing K] {nx : ℕ} (cols : List (Vec K nx)) : Vec K nx :=
  fun r => (cols.map (fun c => c r)).sum / (cols.length : K)

/-- Ensemble matrix with its column mean subtracted from every column,
`pert_state = state_ens - np.dot(state_ens.mean(1)[:, None], np.ones((1, self.ne)))`
(ensemble_gaussian.py lines 169 and 235). -/
def pertCols {K : Type} [DivisionRing K] {nx : ℕ} (cols : List (Vec K nx)) :
    List (Vec K nx) :=
  cols.map (fun c => c - colMean cols)

/-- The data stored on the `GaussianEnsemble` object by a `gradient` call and reused
by `hessian`: the generated ensemble (a list of flattened columns), the per-level
objective values, the baseline objective value `state_func_values`, the bias-correction
factor (`none` when no bias file is configured), the multilevel combination weights
`cov_wgt` (`none` when no multilevel configuration is present) and the covariance that
was passed to `gradient`. -/
structure EnsembleStore (nx : ℕ) where
  stateEns : List (Vec ℚ nx)
  ensFuncValues : List (List ℚ)
  stateFuncValues : ℚ
  biasFactor : Option ℚ
  covWgt : Option (List ℚ)
  cov : Mat ℚ nx

/-- Per-level objective perturbation of `gradient` (ensemble_gaussian.py lines 179-183):
with bias correction the level's values are first multiplied by the bias factor and the
level mean of the scaled values is subtracted; without it the baseline objective value is
subtracted from every member. -/
def pertObjFunc (bias : Option ℚ) (baseline : ℚ) (J : List ℚ) : List ℚ :=
  match bias with
  | some b =>
      let jb := J.map (fun v => b * v)
      jb.map (fun v => v - jb.sum / (jb.length : ℚ))
  | none => J.map (fun v => v - baseline)

/-- Accumulation loop of ensemble_gaussian.py lines 187-189:
`g_m = g_m + pert_obj_func[i] * pert_state[:, start_index + i]`. -/
def gradAccum {nx : ℕ} (dJ : List ℚ) (cols : List (Vec ℚ nx)) : Vec ℚ nx :=
  (List.zipWith (fun a c => a • c) dJ cols).foldl (· + ·) 0

/-- Per-level gradients (ensemble_gaussian.py lines 177-192): the centered ensemble
columns are consumed level by level via `start_index`, and each accumulated sum is
divided by `(ml_ne - 1)`. -/
def levelGradients {nx : ℕ} (bias : Option ℚ) (baseline : ℚ) :
    List (Vec ℚ nx) → List (List ℚ) → List (Vec ℚ nx)
  | _, [] => []
  | pert, J :: rest =>
      (((J.length : ℚ) - 1)⁻¹ • gradAccum (pertObjFunc bias baseline J) pert)
        :: levelGradients bias baseline (pert.drop J.length) rest

/-- Multilevel combination (ensemble_gaussian.py lines 194-200, 256-262 and 366-372):
with a `cov_wgt` list the per-level results are combined as a weighted sum divided by
`total`; without a multilevel configuration the first level's result is returned
directly. -/
def combineLevels {K M : Type} [DivisionRing K] [AddCommMonoid M] [Module K M]
    (covWgt : Option (List K)) (total : K) (lvls : List M) : M :=
  match covWgt with
  | some w => total⁻¹ • (List.zipWith (fun g c => c • g) lvls w).foldl (· + ·) 0
  | none => lvls.headD 0

/-- The `gradient` method (ensemble_gaussian.py lines 108-202) as a function of the
stored ensemble data; ensemble generation and the simulator runs that fill
`ens_func_values` are the caller's input.  `total` is `self.ne`, the number of generated
columns. -/
def gradient {nx : ℕ} (store : EnsembleStore nx) : Vec ℚ nx :=
  combineLevels store.covWgt (store.stateEns.length : ℚ)
    (levelGradients store.biasFactor store.stateFuncValues (pertCols store.stateEns)
      store.ensFuncValues)

/-- Accumulation loop of ensemble_gaussian.py lines 249-251:
`g_c = g_c + pert_obj_func[i] * (np.outer(pert_state[:, i], pert_state[:, i]) - self.cov)`. -/
def hessAccum {nx : ℕ} (dJ : List ℚ) (cols : List (Vec ℚ nx)) (cov : Mat ℚ nx) :
    Mat ℚ nx :=
  (List.zipWith (fun a c => a • (fun p q => c p * c q - cov p q : Mat ℚ nx)) dJ cols).foldl
    (· + ·) 0

/-- Per-level Hessians (ensemble_gaussian.py lines 244-254); the perturbed objective is
always the values minus the baseline (no bias branch in `hessian`). -/
def levelHessians {nx : ℕ} (baseline : ℚ) (cov : Mat ℚ nx) :
    List (Vec ℚ nx) → List (List ℚ) → List (Mat ℚ nx)
  | _, [] => []
  | pert, J :: rest =>
      (((J.length : ℚ) - 1)⁻¹ • hessAccum (J.map (fun v => v - baseline)) pert cov)
        :: levelHessians baseline cov (pert.drop J.length) rest

/-- The `hessian` method (ensemble_gaussian.py lines 204-264), reusing the ensemble,
objective values and covariance stored by the most recent `gradient` call. -/
def hessian {nx : ℕ} (store : EnsembleStore nx) : Mat ℚ nx :=
  combineLevels store.covWgt (store.stateEns.length : ℚ)
    (levelHessians store.stateFuncValues store.cov (pertCols store.stateEns)
      store.ensFuncValues)

/-- Start offset of level `l` in the flattened ensemble: the sum of the sizes of the
earlier levels (`start_index` in the gradient and hessian loops). -/
def levelStart (Js : List (List ℚ)) (l : ℕ) : ℕ :=
  ((Js.take l).map List.length).sum

/- ### List helper lemmas -/

lemma foldl_add_eq_sum {M : Type} [AddCommMonoid M] (l : List M) (a : M) :
    l.foldl (· + ·) a = a + l.sum := by
  induction l generalizing a with
  | nil => simp
  | cons x xs ih => simp [List.foldl_cons, ih (a + x), add_assoc]

lemma zipWith_smul_sum {K M : Type} [Semiring K] [AddCommMonoid M] [Module K M]
    (xs : List K) (cols : List M) :
    (List.zipWith (fun a c => a • c) xs cols).sum
      = ∑ i ∈ Finset.range xs.length, xs.getD i 0 • cols.getD i 0 := by
  induction xs generalizing cols with
  | nil => simp
  | cons x xs ih =>
    cases cols with
    | nil => simp [List.getD]
    | cons c cs =>
      simp only [List.zipWith, List.sum_cons, ih cs, List.length_cons,
        Finset.sum_range_succ', List.getD_cons_succ, List.getD_cons_zero]
      rw [add_comm]

lemma zipWith_smul_sum' {K M : Type} [Semiring K] [AddCommMonoid M] [Module K M]
    (gs : List M) (ws : List K) (h : gs.length ≤ ws.length) :
    (List.zipWith (fun g c => c • g) gs ws).sum
      = ∑ i ∈ Finset.range gs.length, ws.getD i 0 • gs.getD i 0 := by
  induction gs generalizing ws with
  | nil => simp
  | cons g gs ih =>
    cases ws with
    | nil => simp at h
    | cons w ws' =>
      simp only [List.length_cons, Nat.succ_le_succ_iff] at h
      simp only [List.zipWith, List.sum_cons, ih ws' h, List.length_cons,
        Finset.sum_range_succ', List.getD_cons_succ, List.getD_cons_zero]
      exact add_comm _ _

lemma getD_drop {α : Type} (l : List α) (d : α) (s i : ℕ) :
    (l.drop s).getD i d = l.getD (s + i) d := by
  induction l generalizing s with
  | nil => simp
  | cons x xs ih =>
    cases s with
    | zero => simp
    | succ s' =>
      simp only [List.drop_succ_cons, ih s', Nat.succ_add, List.getD_cons_succ]

lemma gradAccum_eq {nx : ℕ} (dJ : List ℚ) (cols : List (Vec ℚ nx)) :
    gradAccum dJ cols
      = ∑ i ∈ Finset.range dJ.length, dJ.getD i 0 • cols.getD i 0 := by
  unfold gradAccum
  rw [foldl_add_eq_sum, zero_add, zipWith_smul_sum]

lemma levelGradients_getD {nx : ℕ} (bias : Option ℚ) (baseline : ℚ)
    (pert : List (Vec ℚ nx)) (Js : List (List ℚ)) (l : ℕ) (hl : l < Js.length) :
    (levelGradients bias baseline pert Js).getD l 0
      = (((Js.getD l []).length : ℚ) - 1)⁻¹ •
          gradAccum (pertObjFunc bias baseline (Js.getD l []))
            (pert.drop (levelStart Js l)) := by
  induction Js generalizing pert l with
  | nil => simp at hl
  | cons J rest ih =>
    cases l with
    | zero => simp [levelGradients, levelStart]
    | succ l' =>
      simp only [List.length_cons, Nat.succ_lt_succ_iff] at hl
      simp only [levelGradients, List.getD_cons_succ, ih (pert.drop J.length) l' hl,
        levelStart, List.take_succ_cons, List.map_cons, List.sum_cons, List.drop_drop]

lemma hessAccum_eq {nx : ℕ} (dJ : List ℚ) (cols : List (Vec ℚ nx)) (cov : Mat ℚ nx)
    (h : dJ.length ≤ cols.length) :
    hessAccum dJ cols cov
      = ∑ i ∈ Finset.range dJ.length,
          dJ.getD i 0 • (fun p q => cols.getD i 0 p * cols.getD i 0 q - cov p q : Mat ℚ nx) := by
  unfold hessAccum
  rw [foldl_add_eq_sum, zero_add]
  induction dJ generalizing cols with
  | nil => simp
  | cons x xs ih =>
    cases cols with
    | nil => simp at h
    | cons c cs =>
      simp only [List.length_cons, Nat.succ_le_succ_iff] at h
      simp only [List.zipWith, List.sum_cons, ih cs h, List.length_cons,
        Finset.sum_range_succ', List.getD_cons_succ, List.getD_cons_zero]
      exact add_comm _ _

lemma levelHessians_getD {nx : ℕ} (baseline : ℚ) (cov : Mat ℚ nx)
    (pert : List (Vec ℚ nx)) (Js : List (List ℚ)) (l : ℕ) (hl : l < Js.length) :
    (levelHessians baseline cov pert Js).getD l 0
      = (((Js.getD l []).length : ℚ) - 1)⁻¹ •
          hessAccum ((Js.getD l []).map (fun v => v - baseline))
            (pert.drop (levelStart Js l)) cov := by
  induction Js generalizing pert l with
  | nil => simp at hl
  | cons J rest ih =>
    cases l with
    | zero => simp [levelHessians, levelStart]
    | succ l' =>
      simp only [List.length_cons, Nat.succ_lt_succ_iff] at hl
      simp only [levelHessians, List.getD_cons_succ, ih (pert.drop J.length) l' hl,
        levelStart, List.take_succ_cons, List.map_cons, List.sum_cons, List.drop_drop]

/-- C1: for every level `l` with ensemble size `n_l ≥ 2`, the per-level gradient that
the `gradient` method computes is `g_l = (Σ_i δJ[i] · δX[:, start_l + i]) / (n_l − 1)`,
where `δX` is the flattened ensemble matrix with its column mean subtracted from every
column, and `δJ` is the level's objective values minus the level's mean objective after
scaling by the bias-correction factor (bias correction enabled), or minus the baseline
objective value (bias correction disabled). -/
theorem gradient_per_level {nx : ℕ} (store : EnsembleStore nx) (l : ℕ)
    (hl : l < store.ensFuncValues.length)
    (h2 : 2 ≤ (store.ensFuncValues.getD l []).length) :
    (levelGradients store.biasFactor store.stateFuncValues (pertCols store.stateEns)
        store.ensFuncValues).getD l 0
      = fun r =>
          (∑ i ∈ Finset.range (store.ensFuncValues.getD l []).length,
              (pertObjFunc store.biasFactor store.stateFuncValues
                  (store.ensFuncValues.getD l [])).getD i 0
                * (pertCols store.stateEns).getD (levelStart store.ensFuncValues l + i) 0 r)
            / (((store.ensFuncValues.getD l []).length : ℚ) - 1) := by
  rw [levelGradients_getD store.biasFactor store.stateFuncValues _ _ l hl, gradAccum_eq]
  have hlen : (pertObjFunc store.biasFactor store.stateFuncValues
      (store.ensFuncValues.getD l [])).length = (store.ensFuncValues.getD l []).length := by
    unfold pertObjFunc
    cases store.biasFactor <;> simp
  funext r
  rw [hlen, div_eq_inv_mul]
  simp only [Pi.smul_apply, Finset.sum_apply, smul_eq_mul]
  congr 1
  refine Finset.sum_congr rfl (fun i _ => ?_)
  rw [getD_drop]

lemma levelStart_add_le (Js : List (List ℚ)) (l : ℕ) (hl : l < Js.length) :
    levelStart Js l + (Js.getD l []).length ≤ (Js.map List.length).sum := by
  induction Js generalizing l with
  | nil => simp at hl
  | cons J rest ih =>
    cases l with
    | zero =>
      simp only [levelStart, List.take_zero, List.map_nil, List.sum_nil,
        List.getD_cons_zero, List.map_cons, List.sum_cons, Nat.zero_add]
      exact Nat.le_add_right _ _
    | succ l' =>
      simp only [List.length_cons, Nat.succ_lt_succ_iff] at hl
      have := ih l' hl
      simp only [levelStart, List.take_succ_cons, List.map_cons, List.sum_cons,
        List.getD_cons_succ] at this ⊢
      omega

lemma levelHessians_length {nx : ℕ} (baseline : ℚ) (cov : Mat ℚ nx)
    (pert : List (Vec ℚ nx)) (Js : List (List ℚ)) :
    (levelHessians baseline cov pert Js).length = Js.length := by
  induction Js generalizing pert with
  | nil => rfl
  | cons J rest ih => simp [levelHessians, ih]

lemma levelGradients_length {nx : ℕ} (bias : Option ℚ) (baseline : ℚ)
    (pert : List (Vec ℚ nx)) (Js : List (List ℚ)) :
    (levelGradients bias baseline pert Js).length = Js.length := by
  induction Js generalizing pert with
  | nil => rfl
  | cons J rest ih => simp [levelGradients, ih]

lemma getD_map_sub (J : List ℚ) (b : ℚ) (i : ℕ) (hi : i < J.length) :
    (J.map (fun v => v - b)).getD i 0 = J.getD i 0 - b := by
  rw [List.getD_eq_getElem?_getD, List.getD_eq_getElem?_getD, List.getElem?_map]
  simp [List.getElem?_eq_getElem hi]

/-- C2: with bias correction disabled, the `hessian` method computes for every level
`l` with size `n_l ≥ 2` the estimate
`H_l = (Σ_i δJ[i] · (outer(δX[:, i], δX[:, i]) − C)) / (n_l − 1)`, entirely from the
ensemble, objective values and covariance `C` stored by the most recent `gradient`
call (the `EnsembleStore`), and with several levels the returned total is the
`cov_wgt`-weighted sum of the per-level estimates divided by the total ensemble
size. -/
theorem hessian_per_level_and_combination {nx : ℕ} (store : EnsembleStore nx)
    (hbias : store.biasFactor = none)
    (hsz : (store.ensFuncValues.map List.length).sum ≤ store.stateEns.length) :
    (∀ l, l < store.ensFuncValues.length →
        2 ≤ (store.ensFuncValues.getD l []).length →
        (levelHessians store.stateFuncValues store.cov (pertCols store.stateEns)
            store.ensFuncValues).getD l 0
          = fun a b =>
              (∑ i ∈ Finset.range (store.ensFuncValues.getD l []).length,
                  ((store.ensFuncValues.getD l []).getD i 0 - store.stateFuncValues)
                    * ((pertCols store.stateEns).getD
                          (levelStart store.ensFuncValues l + i) 0 a
                        * (pertCols store.stateEns).getD
                            (levelStart store.ensFuncValues l + i) 0 b
                      - store.cov a b))
                / (((store.ensFuncValues.getD l []).length : ℚ) - 1))
    ∧ (∀ w, store.covWgt = some w → store.ensFuncValues.length ≤ w.length →
        hessian store = fun a b =>
          (∑ l ∈ Finset.range store.ensFuncValues.length,
              w.getD l 0
                * (levelHessians store.stateFuncValues store.cov (pertCols store.stateEns)
                    store.ensFuncValues).getD l 0 a b)
            / (store.stateEns.length : ℚ)) := by
  constructor
  · intro l hl _
    have hle : ((store.ensFuncValues.getD l []).map (fun v => v - store.stateFuncValues)).length
        ≤ ((pertCols store.stateEns).drop (levelStart store.ensFuncValues l)).length := by
      have h1 := levelStart_add_le store.ensFuncValues l hl
      simp only [List.length_map, List.length_drop, pertCols]
      omega
    rw [levelHessians_getD store.stateFuncValues store.cov _ _ l hl, hessAccum_eq _ _ _ hle]
    funext a b
    rw [List.length_map, div_eq_inv_mul]
    simp only [Pi.smul_apply, Finset.sum_apply, smul_eq_mul]
    congr 1
    refine Finset.sum_congr rfl (fun i hi => ?_)
    rw [getD_drop, getD_map_sub _ _ i (Finset.mem_range.1 hi)]
  · intro w hw hwl
    simp only [hessian, combineLevels, hw]
    rw [foldl_add_eq_sum, zero_add,
      zipWith_smul_sum' _ _ (by rw [levelHessians_length]; exact hwl),
      levelHessians_length]
    funext a b
    rw [div_eq_inv_mul]
    simp only [Pi.smul_apply, Finset.sum_apply, smul_eq_mul]

/- ### Sequential Monte Carlo weighting: the calc_ensemble_weights method -/

/-- Minimum of a nonempty list, the behaviour of `np.min` on a nonempty array
(ensemble_gaussian.py lines 351-352 and 359). -/
def listMin {α : Type} [LinearOrder α] [Inhabited α] : List α → α
  | [] => default
  | x :: xs => xs.foldl min x

/-- Index of the first minimum of a list, the behaviour of `np.argmin`
(ensemble_gaussian.py line 359). -/
def argminIdx {α : Type} [LinearOrder α] [Inhabited α] : List α → ℕ
  | [] => 0
  | [_] => 0
  | x :: y :: xs => if x ≤ listMin (y :: xs) then 0 else argminIdx (y :: xs) + 1

/-- Importance weights of one level (ensemble_gaussian.py lines 349-355): for each of
the `ml_ne` particles, `exp(np.clip(-(J_i - min(J)) * inflation_factor, None, 10))`;
then the additive constant `0.000001` is added to every weight and the result is
normalized by its sum. -/
noncomputable def smcWeights (infl : ℝ) (vals : List ℝ) (mlNe : ℕ) : List ℝ :=
  let raw := (List.range mlNe).map (fun i =>
    Real.exp (min (-(vals.getD i 0 - listMin vals) * infl) 10))
  let w := raw.map (fun x => x + 0.000001)
  w.map (fun x => x / w.sum)

/-- New-sample count of one level (ensemble_gaussian.py lines 331-336): with several
levels (`L > 1`) the last level absorbs the rounding remainder relative to
`int(np.round(num_samples * survival_factor))`; every other level gets
`int(np.round(ml_ne * survival_factor))`. -/
def mlNeNewOf (manyLevels isLast : Bool) (numSamples : ℕ) (f : ℚ) (mlNe : ℕ)
    (mlNeNewTotal : ℤ) : ℤ :=
  if manyLevels && isLast then npRound ((numSamples : ℚ) * f) - mlNeNewTotal
  else npRound ((mlNe : ℚ) * f)

/-- The per-level new-sample counts produced by the loop of ensemble_gaussian.py
lines 329-337, with the running total `ml_ne_new_total` carried as in the source
(only incremented for non-last levels). -/
def mlNeNewList (numSamples : ℕ) (f : ℚ) (manyLevels : Bool) (total : ℤ) :
    List ℕ → List ℤ
  | [] => []
  | mlNe :: rest =>
      mlNeNewOf manyLevels rest.isEmpty numSamples f mlNe total
        :: mlNeNewList numSamples f manyLevels
          (if manyLevels && rest.isEmpty then total
           else total + mlNeNewOf manyLevels rest.isEmpty numSamples f mlNe total) rest

/-- Seeding / update of the persisted particle population of one level
(ensemble_gaussian.py lines 339-346): on the first round (`prev = none`) the particles
are the `ml_ne` fresh-ensemble columns from `start_index` on and the values are the
level's objective values; on later rounds the surviving slice is gathered through the
previous resample index and the remaining slice is overwritten with the `ml_ne_new`
fresh columns / the level's fresh objective values. -/
def levelParticles {nx : ℕ} (stateEns : List (Vec ℝ nx)) (startIndex mlNe mlNeNew : ℕ)
    (prev : Option (List (Vec ℝ nx) × List ℝ × List ℕ)) (Jl : List ℝ) :
    List (Vec ℝ nx) × List ℝ :=
  match prev with
  | none => ((stateEns.drop startIndex).take mlNe, Jl)
  | some (pp, pv, ridx) =>
      (ridx.map (fun i => pp.getD i 0) ++ (stateEns.drop startIndex).take mlNeNew,
       ridx.map (fun i => pv.getD i 0) ++ Jl)

/-- Product `particles @ weights` (ensemble_gaussian.py line 357): the weighted sum of
the particle columns. -/
def matVec {K : Type} [Semiring K] {nx : ℕ} (cols : List (Vec K nx)) (w : List K) :
    Vec K nx :=
  (List.zipWith (fun c wi => wi • c) cols w).foldl (· + ·) 0

/-- Result of one round of the per-level loop of calc_ensemble_weights: the persisted
particle state after the round, the per-level sensitivities, and the best member of the
finest (last) level with its objective value. -/
structure SmcRound (nx : ℕ) where
  particles : List (List (Vec ℝ nx))
  particleValues : List (List ℝ)
  resampleIndex : List (List ℕ)
  levelSens : List (Vec ℝ nx)
  bestEns : Vec ℝ nx
  bestFunc : ℝ

/-- The per-level loop of calc_ensemble_weights (ensemble_gaussian.py lines 329-364).
Levels are listed as (declared size `en_size[l]`, the level's fresh objective values,
the previous particle state or `none` on the first round); `manyLevels` is `L > 1`;
`choice` abstracts the weighted survivor draw `np.random.choice` of line 362, indexed
by the level counter.  `start_index` advances by `ml_ne_new` (line 364). -/
noncomputable def smcLoop {nx : ℕ} (numSamples : ℕ) (f : ℚ) (infl : ℝ)
    (manyLevels : Bool) (stateEns : List (Vec ℝ nx))
    (choice : ℕ → ℕ → List ℝ → ℕ → List ℕ) :
    ℕ → ℤ → ℕ →
      List (ℕ × List ℝ × Option (List (Vec ℝ nx) × List ℝ × List ℕ)) → SmcRound nx
  | _, _, _, [] => ⟨[], [], [], [], 0, 0⟩
  | startIndex, total, lvl, (mlNe, Jl, prev) :: rest =>
      let mlNeNew := (mlNeNewOf manyLevels rest.isEmpty numSamples f mlNe total).toNat
      let mlNeSurv := mlNe - mlNeNew
      let pv := levelParticles stateEns startIndex mlNe mlNeNew prev Jl
      let w := smcWeights infl pv.2 mlNe
      let r := smcLoop numSamples f infl manyLevels stateEns choice
        (startIndex + mlNeNew)
        (if manyLevels && rest.isEmpty then total else total + mlNeNew)
        (lvl + 1) rest
      { particles := pv.1 :: r.particles
        particleValues := pv.2 :: r.particleValues
        resampleIndex := choice lvl mlNe w mlNeSurv :: r.resampleIndex
        levelSens := matVec pv.1 w :: r.levelSens
        bestEns := if rest.isEmpty then pv.1.getD (argminIdx pv.2) 0 else r.bestEns
        bestFunc := if rest.isEmpty then pv.2.getD (argminIdx pv.2) 0 else r.bestFunc }

/-- The calc_ensemble_weights method (ensemble_gaussian.py lines 266-374) as a function
of the freshly drawn ensemble and the persisted particle state: it returns
(sens_matrix, best_ens, best_func) together with the updated particle state, where the
multilevel combination divides the `cov_wgt`-weighted sum of the per-level
sensitivities by the declared `num_samples` (lines 366-372). -/
noncomputable def calcEnsembleWeights {nx : ℕ} (numSamples : ℕ) (f : ℚ) (infl : ℝ)
    (covWgt : Option (List ℝ)) (stateEns : List (Vec ℝ nx))
    (choice : ℕ → ℕ → List ℝ → ℕ → List ℕ)
    (levels : List (ℕ × List ℝ × Option (List (Vec ℝ nx) × List ℝ × List ℕ))) :
    (Vec ℝ nx × Vec ℝ nx × ℝ) × SmcRound nx :=
  let r := smcLoop numSamples f infl (decide (1 < levels.length)) stateEns choice
    0 0 0 levels
  (⟨combineLevels covWgt (numSamples : ℝ) r.levelSens, r.bestEns, r.bestFunc⟩, r)

/- ### C5: the per-level new-sample counts -/

lemma mlNeNewList_getD_nonlast (numSamples : ℕ) (f : ℚ) (many : Bool) (total : ℤ)
    (sizes : List ℕ) (l : ℕ) (hl : l + 1 < sizes.length) :
    (mlNeNewList numSamples f many total sizes).getD l 0
      = npRound ((sizes.getD l 0 : ℚ) * f) := by
  induction sizes generalizing total l with
  | nil => simp at hl
  | cons n rest ih =>
    cases l with
    | zero =>
      have hrest : rest.isEmpty = false := by
        cases rest with
        | nil => simp at hl
        | cons m rest' => rfl
      simp [mlNeNewList, mlNeNewOf, hrest]
    | succ l' =>
      have hl' : l' + 1 < rest.length := by
        simpa using hl
      rw [mlNeNewList, List.getD_cons_succ]
      exact ih _ l' hl'

lemma mlNeNewList_sum_many (numSamples : ℕ) (f : ℚ) (total : ℤ) (sizes : List ℕ)
    (h : sizes ≠ []) :
    (mlNeNewList numSamples f true total sizes).sum
      = npRound ((numSamples : ℚ) * f) - total := by
  induction sizes generalizing total with
  | nil => exact absurd rfl h
  | cons n rest ih =>
    cases rest with
    | nil => simp [mlNeNewList, mlNeNewOf]
    | cons m rest' =>
      rw [mlNeNewList, List.sum_cons, ih _ (List.cons_ne_nil m rest')]
      simp only [mlNeNewOf, List.isEmpty_cons, Bool.and_false, Bool.false_eq_true,
        if_false]
      omega

/-- C5: in calc_ensemble_weights with survival fraction `f` and declared level sizes
`en_size` summing to `num_samples`, every non-last level gets
`round(en_size[l] * f)` new samples and keeps `en_size[l] - round(en_size[l] * f)`
survivors, and the total new-sample count over all levels is exactly
`round(num_samples * f)` (the last level absorbing the rounding remainder). -/
theorem calc_ensemble_weights_counts (numSamples : ℕ) (f : ℚ) (enSize : List ℕ)
    (hne : enSize ≠ []) (hsum : enSize.sum = numSamples) :
    (∀ l, l + 1 < enSize.length →
        (mlNeNewList numSamples f (decide (1 < enSize.length)) 0 enSize).getD l 0
          = npRound ((enSize.getD l 0 : ℚ) * f)
        ∧ (enSize.getD l 0 : ℤ)
            - (mlNeNewList numSamples f (decide (1 < enSize.length)) 0 enSize).getD l 0
          = (enSize.getD l 0 : ℤ) - npRound ((enSize.getD l 0 : ℚ) * f))
    ∧ (mlNeNewList numSamples f (decide (1 < enSize.length)) 0 enSize).sum
        = npRound ((numSamples : ℚ) * f) := by
  constructor
  · intro l hl
    refine ⟨mlNeNewList_getD_nonlast _ _ _ _ _ l hl, ?_⟩
    rw [mlNeNewList_getD_nonlast _ _ _ _ _ l hl]
  · cases enSize with
    | nil => exact absurd rfl hne
    | cons n rest =>
      cases rest with
      | nil =>
        have hn : n = numSamples := by simpa using hsum
        subst hn
        simp [mlNeNewList, mlNeNewOf]
      | cons m rest' =>
        have h2 : decide (1 < (n :: m :: rest').length) = true := by
          simp [List.length_cons]
        rw [h2, mlNeNewList_sum_many _ _ _ _ (List.cons_ne_nil n (m :: rest')), sub_zero]

/- ### C7: positivity and normalization of the importance weights -/

lemma foldl_min_le_init {α : Type} [LinearOrder α] (as : List α) (a : α) :
    as.foldl min a ≤ a := by
  induction as generalizing a with
  | nil => exact le_refl a
  | cons b bs ih => exact le_trans (ih (min a b)) (min_le_left a b)

lemma foldl_min_le_mem {α : Type} [LinearOrder α] (as : List α) (a x : α) (h : x ∈ as) :
    as.foldl min a ≤ x := by
  induction as generalizing a with
  | nil => simp at h
  | cons b bs ih =>
    rcases List.mem_cons.1 h with rfl | h
    · exact le_trans (foldl_min_le_init bs (min a x)) (min_le_right a x)
    · exact ih (min a b) h

lemma listMin_le {α : Type} [LinearOrder α] [Inhabited α] (l : List α) (x : α)
    (hx : x ∈ l) : listMin l ≤ x := by
  cases l with
  | nil => simp at hx
  | cons a as =>
    rcases List.mem_cons.1 hx with rfl | h
    · exact foldl_min_le_init as x
    · exact foldl_min_le_mem as a x h

lemma sum_map_div (l : List ℝ) (s : ℝ) :
    (l.map (fun x => x / s)).sum = l.sum / s := by
  induction l with
  | nil => simp
  | cons x xs ih => simp [ih, add_div]

lemma smcWeights_getD (infl : ℝ) (vals : List ℝ) (n j : ℕ) (hj : j < n) :
    (smcWeights infl vals n).getD j 0
      = (Real.exp (min (-(vals.getD j 0 - listMin vals) * infl) 10) + 0.000001)
          / (((List.range n).map (fun i =>
              Real.exp (min (-(vals.getD i 0 - listMin vals) * infl) 10)
                + 0.000001)).sum) := by
  simp only [smcWeights, List.map_map]
  rw [List.getD_eq_getElem?_getD, List.getElem?_map, List.getElem?_range hj]
  simp only [Option.map_some', Option.getD_some, Function.comp_def]

lemma smcWeights_sum_pos (infl : ℝ) (vals : List ℝ) (n : ℕ) (hn : 0 < n) :
    0 < ((List.range n).map (fun i =>
        Real.exp (min (-(vals.getD i 0 - listMin vals) * infl) 10) + 0.000001)).sum := by
  apply List.sum_pos
  · intro x hx
    rcases List.mem_map.1 hx with ⟨i, _, rfl⟩
    positivity
  · apply List.ne_nil_of_length_pos
    simpa using hn

lemma sum_map_div' {α : Type} (l : List α) (h : α → ℝ) (s : ℝ) :
    (l.map (fun x => h x / s)).sum = (l.map h).sum / s := by
  induction l with
  | nil => simp
  | cons x xs ih => simp [ih, add_div]

lemma getD_mem {α : Type} (l : List α) (d : α) (j : ℕ) (hj : j < l.length) :
    l.getD j d ∈ l := by
  rw [List.getD_eq_getElem l d hj]
  exact List.getElem_mem hj

/-- C7: for any nonempty objective-value vector held at a level (and nonnegative
inflation factor), the weights computed as
`exp(clip(-(J_i - min(J)) * inflation_factor, upper 10))` plus the additive constant
`1e-6`, normalized by their sum, are strictly positive, sum to 1, and the member with
the minimum objective value receives the maximum weight. -/
theorem smc_weights_normalized (infl : ℝ) (vals : List ℝ)
    (hne : vals ≠ []) (hinfl : 0 ≤ infl) :
    (∀ j, j < vals.length → 0 < (smcWeights infl vals vals.length).getD j 0)
    ∧ (smcWeights infl vals vals.length).sum = 1
    ∧ (∀ i, i < vals.length → vals.getD i 0 = listMin vals →
        ∀ j, j < vals.length →
          (smcWeights infl vals vals.length).getD j 0
            ≤ (smcWeights infl vals vals.length).getD i 0) := by
  have hn : 0 < vals.length := List.length_pos.2 hne
  have hSpos := smcWeights_sum_pos infl vals vals.length hn
  refine ⟨?_, ?_, ?_⟩
  · intro j hj
    rw [smcWeights_getD infl vals _ j hj]
    have hx := Real.exp_pos (min (-(vals.getD j 0 - listMin vals) * infl) 10)
    apply div_pos _ hSpos
    linarith
  · simp only [smcWeights, List.map_map, Function.comp_def]
    rw [sum_map_div']
    exact div_self (ne_of_gt hSpos)
  · intro i hi hmin j hj
    rw [smcWeights_getD infl vals _ i hi, smcWeights_getD infl vals _ j hj]
    have hei : min (-(vals.getD i 0 - listMin vals) * infl) 10 = 0 := by
      rw [hmin, sub_self, neg_zero, zero_mul]
      exact min_eq_left (by norm_num)
    have hmj : listMin vals ≤ vals.getD j 0 :=
      listMin_le vals _ (getD_mem vals 0 j hj)
    have hej : min (-(vals.getD j 0 - listMin vals) * infl) 10 ≤ 0 := by
      have h1 : 0 ≤ (vals.getD j 0 - listMin vals) * infl :=
        mul_nonneg (sub_nonneg.2 hmj) hinfl
      have h2 : -(vals.getD j 0 - listMin vals) * infl ≤ 0 := by
        rw [neg_mul]
        linarith
      exact le_trans (min_le_left _ _) h2
    have hexp : Real.exp (min (-(vals.getD j 0 - listMin vals) * infl) 10)
        ≤ Real.exp (min (-(vals.getD i 0 - listMin vals) * infl) 10) := by
      apply Real.exp_le_exp.2
      rw [hei]
      exact hej
    exact (div_le_div_iff_of_pos_right hSpos).2 (by linarith)

/- ### C9: the multilevel combination of the SMC sensitivities -/

lemma smcLoop_levelSens_length {nx : ℕ} (numSamples : ℕ) (f : ℚ) (infl : ℝ)
    (many : Bool) (stateEns : List (Vec ℝ nx)) (choice : ℕ → ℕ → List ℝ → ℕ → List ℕ)
    (s0 : ℕ) (t0 : ℤ) (lvl : ℕ)
    (levels : List (ℕ × List ℝ × Option (List (Vec ℝ nx) × List ℝ × List ℕ))) :
    (smcLoop numSamples f infl many stateEns choice s0 t0 lvl levels).levelSens.length
      = levels.length := by
  induction levels generalizing s0 t0 lvl with
  | nil => rfl
  | cons hd rest ih =>
    obtain ⟨mlNe, Jl, prev⟩ := hd
    simp only [smcLoop, List.length_cons]
    rw [ih]

/-- C9: in a multilevel configuration, calc_ensemble_weights returns the combined
sensitivity as the cov_wgt-weighted sum of the per-level sensitivities divided by the
originally declared `num_samples`, whatever the actual sizes of the freshly drawn
ensemble or of the individual levels are — the divisor is never the actual combined
size. -/
theorem smc_sens_divided_by_num_samples {nx : ℕ} (numSamples : ℕ) (f : ℚ) (infl : ℝ)
    (stateEns : List (Vec ℝ nx)) (choice : ℕ → ℕ → List ℝ → ℕ → List ℕ)
    (levels : List (ℕ × List ℝ × Option (List (Vec ℝ nx) × List ℝ × List ℕ)))
    (w : List ℝ) (hw : levels.length ≤ w.length) :
    (calcEnsembleWeights numSamples f infl (some w) stateEns choice levels).1.1
      = (numSamples : ℝ)⁻¹ •
          ∑ l ∈ Finset.range levels.length,
            w.getD l 0 •
              (smcLoop numSamples f infl (decide (1 < levels.length)) stateEns choice
                0 0 0 levels).levelSens.getD l 0 := by
  simp only [calcEnsembleWeights, combineLevels]
  rw [foldl_add_eq_sum, zero_add,
    zipWith_smul_sum' _ _ (by rw [smcLoop_levelSens_length]; exact hw),
    smcLoop_levelSens_length]

/- ### C10: first-round seeding of the particle population -/

/-- Seed offset of level `l` on the first calc_ensemble_weights call: the sum over the
earlier levels of their new-sample counts `round(en_size[k] * survival_factor)`
(line 364 advances `start_index` by `ml_ne_new`, not by the level size). -/
def firstSeedOffset (f : ℚ) (enSize : List ℕ) (l : ℕ) : ℕ :=
  ∑ k ∈ Finset.range l, (npRound ((enSize.getD k 0 : ℚ) * f)).toNat

lemma firstSeedOffset_cons_succ (f : ℚ) (n : ℕ) (rest : List ℕ) (l : ℕ) :
    firstSeedOffset f (n :: rest) (l + 1)
      = (npRound ((n : ℚ) * f)).toNat + firstSeedOffset f rest l := by
  unfold firstSeedOffset
  rw [Finset.sum_range_succ']
  simp only [List.getD_cons_succ, List.getD_cons_zero]
  exact add_comm _ _

lemma npRound_le (q : ℚ) (n : ℤ) (h : q ≤ (n : ℚ)) : npRound q ≤ n := by
  have hfl : ⌊q⌋ ≤ n := by
    have := Int.floor_le_floor h
    rwa [Int.floor_intCast] at this
  unfold npRound
  split_ifs with h1 h2 h3
  · exact hfl
  · have hflq : (⌊q⌋ : ℚ) ≤ q := Int.floor_le q
    have hlt : ⌊q⌋ < n := by
      rcases lt_or_eq_of_le hfl with hh | hh
      · exact hh
      · exfalso
        rw [hh] at h1 hflq
        have : q - (n : ℚ) ≤ 0 := by linarith
        have : q - (n : ℚ) < 1 / 2 := by linarith
        exact h1 this
    omega
  · exact hfl
  · have hflq : (⌊q⌋ : ℚ) ≤ q := Int.floor_le q
    have hlt : ⌊q⌋ < n := by
      rcases lt_or_eq_of_le hfl with hh | hh
      · exact hh
      · exfalso
        rw [hh] at h1 hflq
        have : q - (n : ℚ) ≤ 0 := by linarith
        have : q - (n : ℚ) < 1 / 2 := by linarith
        exact h1 this
    omega

lemma npRound_toNat_le (n : ℕ) (f : ℚ) (hf : f ≤ 1) :
    (npRound ((n : ℚ) * f)).toNat ≤ n := by
  rcases le_total ((n : ℚ) * f) 0 with h | h
  · have : npRound ((n : ℚ) * f) ≤ 0 := npRound_le _ 0 (by exact_mod_cast h)
    omega
  · have hq : (n : ℚ) * f ≤ (n : ℚ) := by
      calc (n : ℚ) * f ≤ (n : ℚ) * 1 := by
            apply mul_le_mul_of_nonneg_left hf
            exact_mod_cast Nat.zero_le n
        _ = (n : ℚ) := mul_one _
    have := npRound_le ((n : ℚ) * f) (n : ℤ) (by exact_mod_cast hq)
    omega


lemma smcLoop_cons_step {nx : ℕ} (numSamples : ℕ) (f : ℚ) (infl : ℝ) (many : Bool)
    (stateEns : List (Vec ℝ nx)) (choice : ℕ → ℕ → List ℝ → ℕ → List ℕ)
    (s0 : ℕ) (t0 : ℤ) (lvl : ℕ) (mlNe : ℕ) (Jl : List ℝ)
    (prev : Option (List (Vec ℝ nx) × List ℝ × List ℕ))
    (rest : List (ℕ × List ℝ × Option (List (Vec ℝ nx) × List ℝ × List ℕ)))
    (hrest : rest ≠ []) (l' : ℕ) :
    ((smcLoop numSamples f infl many stateEns choice s0 t0 lvl
        ((mlNe, Jl, prev) :: rest)).particles.getD (l' + 1) []
      = (smcLoop numSamples f infl many stateEns choice
          (s0 + (npRound ((mlNe : ℚ) * f)).toNat)
          (t0 + ((npRound ((mlNe : ℚ) * f)).toNat : ℤ)) (lvl + 1) rest).particles.getD l' [])
    ∧ ((smcLoop numSamples f infl many stateEns choice s0 t0 lvl
        ((mlNe, Jl, prev) :: rest)).particleValues.getD (l' + 1) []
      = (smcLoop numSamples f infl many stateEns choice
          (s0 + (npRound ((mlNe : ℚ) * f)).toNat)
          (t0 + ((npRound ((mlNe : ℚ) * f)).toNat : ℤ)) (lvl + 1) rest).particleValues.getD
            l' []) := by
  have hie : rest.isEmpty = false := by
    cases rest with
    | nil => exact absurd rfl hrest
    | cons a as => rfl
  simp only [smcLoop, hie, Bool.and_false, Bool.false_eq_true, if_false, mlNeNewOf,
    List.getD_cons_succ]
  constructor <;> trivial

lemma smcLoop_first_round_getD {nx : ℕ} (numSamples : ℕ) (f : ℚ) (infl : ℝ)
    (many : Bool) (stateEns : List (Vec ℝ nx)) (choice : ℕ → ℕ → List ℝ → ℕ → List ℕ)
    (sizes : List ℕ) (Js : List (List ℝ)) (hlen : Js.length = sizes.length)
    (s0 : ℕ) (t0 : ℤ) (lvl : ℕ) (l : ℕ) (hl : l < sizes.length) :
    ((smcLoop numSamples f infl many stateEns choice s0 t0 lvl
        (List.zipWith (fun n J => (n, J, none)) sizes Js)).particles.getD l []
      = (stateEns.drop (s0 + firstSeedOffset f sizes l)).take (sizes.getD l 0))
    ∧ ((smcLoop numSamples f infl many stateEns choice s0 t0 lvl
        (List.zipWith (fun n J => (n, J, none)) sizes Js)).particleValues.getD l []
      = Js.getD l []) := by
  induction sizes generalizing Js s0 t0 lvl l with
  | nil => simp at hl
  | cons n rest ih =>
    cases Js with
    | nil => simp at hlen
    | cons J Js' =>
      have hlen' : Js'.length = rest.length := by simpa using hlen
      cases l with
      | zero => exact ⟨rfl, rfl⟩
      | succ l' =>
        have hl' : l' < rest.length := by simpa using hl
        obtain ⟨m, rest', rfl⟩ : ∃ m rest', rest = m :: rest' := by
          cases rest with
          | nil => simp at hl'
          | cons m rest' => exact ⟨m, rest', rfl⟩
        obtain ⟨Jm, Js'', rfl⟩ : ∃ Jm Js'', Js' = Jm :: Js'' := by
          cases Js' with
          | nil => simp at hlen'
          | cons Jm Js'' => exact ⟨Jm, Js'', rfl⟩
        have hzne : List.zipWith
            (fun n J => (n, J, (none : Option (List (Vec ℝ nx) × List ℝ × List ℕ))))
            (m :: rest') (Jm :: Js'') ≠ [] := by
          simp [List.zipWith]
        have hstep := smcLoop_cons_step numSamples f infl many stateEns choice
          s0 t0 lvl n J none
          (List.zipWith (fun n J => (n, J, none)) (m :: rest') (Jm :: Js'')) hzne l'
        have hihs := ih (Jm :: Js'') hlen' (s0 + (npRound ((n : ℚ) * f)).toNat)
          (t0 + ((npRound ((n : ℚ) * f)).toNat : ℤ)) (lvl + 1) l' hl'
        constructor
        · rw [show List.zipWith
              (fun n J => (n, J, (none : Option (List (Vec ℝ nx) × List ℝ × List ℕ))))
              (n :: m :: rest') (J :: Jm :: Js'')
              = (n, J, none) :: List.zipWith (fun n J => (n, J, none))
                  (m :: rest') (Jm :: Js'') from rfl,
            hstep.1, hihs.1, firstSeedOffset_cons_succ, List.getD_cons_succ,
            Nat.add_assoc]
        · rw [show List.zipWith
              (fun n J => (n, J, (none : Option (List (Vec ℝ nx) × List ℝ × List ℕ))))
              (n :: m :: rest') (J :: Jm :: Js'')
              = (n, J, none) :: List.zipWith (fun n J => (n, J, none))
                  (m :: rest') (Jm :: Js'') from rfl,
            hstep.2, hihs.2]
          rfl

/-- C10 (amended): on the first call to calc_ensemble_weights (no prior resample
index), the particle matrix of level `l` is seeded from the fresh-ensemble columns
starting at offset `Σ_{k<l} round(en_size[k]·f)` with width `en_size[l]` (the running
offset advances by the new-sample count, not by the level size), while
`particle_values[l]` is seeded from the level-`l` objective values.  Consequently the
seed slices of the consecutive levels `l` and `l+1` overlap whenever
`round(en_size[l]·f) < en_size[l]`, and the seed offset of level `l` lies strictly
before the canonical offset `Σ_{k<l} en_size[k]` — so the seeded columns are not the
states whose objective values are stored alongside them — whenever `f ≤ 1` and some
earlier level `k < l` has `round(en_size[k]·f) < en_size[k]`. -/
theorem smc_first_round_seeding {nx : ℕ} (numSamples : ℕ) (f : ℚ) (infl : ℝ)
    (many : Bool) (stateEns : List (Vec ℝ nx)) (choice : ℕ → ℕ → List ℝ → ℕ → List ℕ)
    (sizes : List ℕ) (Js : List (List ℝ)) (hlen : Js.length = sizes.length) :
    (∀ l, l < sizes.length →
        ((smcLoop numSamples f infl many stateEns choice 0 0 0
            (List.zipWith (fun n J => (n, J, none)) sizes Js)).particles.getD l []
          = (stateEns.drop (firstSeedOffset f sizes l)).take (sizes.getD l 0))
        ∧ ((smcLoop numSamples f infl many stateEns choice 0 0 0
            (List.zipWith (fun n J => (n, J, none)) sizes Js)).particleValues.getD l []
          = Js.getD l []))
    ∧ (∀ l, (npRound ((sizes.getD l 0 : ℚ) * f)).toNat < sizes.getD l 0 →
        firstSeedOffset f sizes (l + 1) < firstSeedOffset f sizes l + sizes.getD l 0)
    ∧ (∀ l, f ≤ 1 →
        (∃ k, k < l ∧ (npRound ((sizes.getD k 0 : ℚ) * f)).toNat < sizes.getD k 0) →
        firstSeedOffset f sizes l < ∑ k ∈ Finset.range l, sizes.getD k 0) := by
  refine ⟨?_, ?_, ?_⟩
  · intro l hl
    have h := smcLoop_first_round_getD numSamples f infl many stateEns choice
      sizes Js hlen 0 0 0 l hl
    rw [Nat.zero_add] at h
    exact h
  · intro l hlt
    unfold firstSeedOffset
    rw [Finset.sum_range_succ]
    omega
  · intro l hf hex
    obtain ⟨k, hk, hklt⟩ := hex
    unfold firstSeedOffset
    apply Finset.sum_lt_sum
    · intro i _
      exact npRound_toNat_le _ f hf
    · exact ⟨k, Finset.mem_range.2 hk, hklt⟩

/-- C10 counterexample: with two levels of declared size 1 each and survival fraction
3/5 < 1, on the first call the seed offset of level 1 equals the canonical offset
`Σ_{k<1} en_size[k] = 1`, the seed slices of levels 0 and 1 do not overlap, and the
particle matrix seeded at level 1 is exactly the canonical level-1 slice of the fresh
ensemble — the very states whose objective values are stored alongside them. -/
theorem smc_first_round_seeding_cex :
    firstSeedOffset (3 / 5) [1, 1] 1 = ∑ k ∈ Finset.range 1, [1, 1].getD k 0
    ∧ ¬ (firstSeedOffset (3 / 5) [1, 1] 1
          < firstSeedOffset (3 / 5) [1, 1] 0 + [1, 1].getD 0 0)
    ∧ (smcLoop 2 (3 / 5) 1 true [(fun _ => 10 : Vec ℝ 1), (fun _ => 20 : Vec ℝ 1)]
          (fun _ _ _ _ => []) 0 0 0
          [(1, [(5 : ℝ)], none), (1, [(7 : ℝ)], none)]).particles.getD 1 []
        = ([(fun _ => 10 : Vec ℝ 1), (fun _ => 20 : Vec ℝ 1)].drop
            (∑ k ∈ Finset.range 1, [1, 1].getD k 0)).take 1 := by
  have h1 : npRound ((3 : ℚ) / 5) = 1 := by
    have hf : ⌊(3 : ℚ) / 5⌋ = 0 := by norm_num
    unfold npRound
    rw [hf]
    norm_num
  have hoff1 : firstSeedOffset (3 / 5) [1, 1] 1 = 1 := by
    unfold firstSeedOffset
    rw [Finset.sum_range_one]
    norm_num [h1]
  have hoff0 : firstSeedOffset (3 / 5) [1, 1] 0 = 0 := by
    unfold firstSeedOffset
    exact Finset.sum_range_zero _
  refine ⟨?_, ?_, ?_⟩
  · rw [hoff1, Finset.sum_range_one]
    rfl
  · rw [hoff1, hoff0]
    norm_num
  · have hgen := smcLoop_first_round_getD 2 (3 / 5) 1 true
      [(fun _ => 10 : Vec ℝ 1), (fun _ => 20 : Vec ℝ 1)] (fun _ _ _ _ => [])
      [1, 1] [[(5 : ℝ)], [(7 : ℝ)]] rfl 0 0 0 1 (by norm_num)
    rw [show ([(1, [(5 : ℝ)], none), (1, [(7 : ℝ)], none)]
          : List (ℕ × List ℝ × Option (List (Vec ℝ 1) × List ℝ × List ℕ)))
        = List.zipWith (fun n J => (n, J, none)) [1, 1] [[(5 : ℝ)], [(7 : ℝ)]] from rfl]
    rw [hgen.1, Nat.zero_add, hoff1, Finset.sum_range_one]
    rfl

/- ### C6: single-level reduction of the three estimators -/

lemma pertObjFunc_length (bias : Option ℚ) (baseline : ℚ) (J : List ℚ) :
    (pertObjFunc bias baseline J).length = J.length := by
  unfold pertObjFunc
  cases bias <;> simp

lemma smul_gradAccum_apply {nx : ℕ} (dJ : List ℚ) (cols : List (Vec ℚ nx)) (c : ℚ) :
    c⁻¹ • gradAccum dJ cols
      = fun r => (∑ i ∈ Finset.range dJ.length, dJ.getD i 0 * cols.getD i 0 r) / c := by
  funext r
  rw [gradAccum_eq, div_eq_inv_mul]
  simp only [Pi.smul_apply, Finset.sum_apply, smul_eq_mul]

lemma smul_hessAccum_apply {nx : ℕ} (dJ : List ℚ) (cols : List (Vec ℚ nx))
    (cov : Mat ℚ nx) (c : ℚ) (h : dJ.length ≤ cols.length) :
    c⁻¹ • hessAccum dJ cols cov
      = fun a b => (∑ i ∈ Finset.range dJ.length,
          dJ.getD i 0 * (cols.getD i 0 a * cols.getD i 0 b - cov a b)) / c := by
  funext a b
  rw [hessAccum_eq _ _ _ h, div_eq_inv_mul]
  simp only [Pi.smul_apply, Finset.sum_apply, smul_eq_mul]

/-- C6: with a single level and no multilevel configuration, the gradient, the hessian
and the SMC sensitivity each equal the level-0 formula directly — with no additional
division by the total ensemble size or the level count. -/
theorem single_level_reduction {nx : ℕ} (ens : List (Vec ℚ nx)) (J : List ℚ)
    (base : ℚ) (bias : Option ℚ) (cov : Mat ℚ nx) (hJ : J.length ≤ ens.length)
    (numSamples : ℕ) (f : ℚ) (infl : ℝ) (stateEns : List (Vec ℝ nx))
    (choice : ℕ → ℕ → List ℝ → ℕ → List ℕ) (n : ℕ) (Jr : List ℝ)
    (prev : Option (List (Vec ℝ nx) × List ℝ × List ℕ)) :
    gradient ⟨ens, [J], base, bias, none, cov⟩
      = (fun r =>
          (∑ i ∈ Finset.range J.length,
              (pertObjFunc bias base J).getD i 0 * (pertCols ens).getD i 0 r)
            / ((J.length : ℚ) - 1))
    ∧ hessian ⟨ens, [J], base, bias, none, cov⟩
      = (fun a b =>
          (∑ i ∈ Finset.range J.length,
              (J.getD i 0 - base)
                * ((pertCols ens).getD i 0 a * (pertCols ens).getD i 0 b - cov a b))
            / ((J.length : ℚ) - 1))
    ∧ (calcEnsembleWeights numSamples f infl none stateEns choice [(n, Jr, prev)]).1.1
      = matVec (levelParticles stateEns 0 n (npRound ((n : ℚ) * f)).toNat prev Jr).1
          (smcWeights infl
            (levelParticles stateEns 0 n (npRound ((n : ℚ) * f)).toNat prev Jr).2 n) := by
  have hle : (J.map (fun v => v - base)).length ≤ (pertCols ens).length := by
    rw [List.length_map]
    unfold pertCols
    rw [List.length_map]
    exact hJ
  refine ⟨?_, ?_, ?_⟩
  · show combineLevels none ((ens.length : ℚ))
        (levelGradients bias base (pertCols ens) [J]) = _
    simp only [combineLevels, levelGradients, List.headD_cons]
    rw [smul_gradAccum_apply, pertObjFunc_length]
  · show combineLevels none ((ens.length : ℚ))
        (levelHessians base cov (pertCols ens) [J]) = _
    simp only [combineLevels, levelHessians, List.headD_cons]
    rw [smul_hessAccum_apply _ _ _ _ hle]
    funext a b
    rw [List.length_map]
    congr 1
    refine Finset.sum_congr rfl (fun i hi => ?_)
    rw [getD_map_sub _ _ i (Finset.mem_range.1 hi)]
  · rfl

/- ### C4: the empirical mean of the generated ensemble -/

/-- One state variable's block of `_gen_state_ensemble` (ensemble_gaussian.py lines
383-393): `temp` is the oracle Gaussian draw (`np.random.multivariate_normal`, one
column per ensemble member); the draw is recentered around `mean` by adding the mean
and subtracting the draw's row mean, and then, only when bounds are present
(`if self.lb and self.ub`, line 388), clipped to `[0, 1]` when `transform` is set or to
the variable's `[lb, ub]` otherwise; with no bounds no clipping is applied. -/
def genStateEnsembleVar {nx : ℕ} (mean : Vec ℚ nx) (temp : List (Vec ℚ nx))
    (bounds : Option (Bool × ℚ × ℚ)) : List (Vec ℚ nx) :=
  let shifted := temp.map (fun c => fun r => mean r + c r - colMean temp r)
  match bounds with
  | none => shifted
  | some (transform, lo, hi) =>
      if transform then shifted.map (fun c r => min (max (c r) 0) 1)
      else shifted.map (fun c r => min (max (c r) lo) hi)

lemma sum_map_affine {α : Type} (l : List α) (g : α → ℚ) (a b : ℚ) :
    (l.map (fun x => a + g x - b)).sum = l.length * a + (l.map g).sum - l.length * b := by
  induction l with
  | nil => simp
  | cons x xs ih =>
    simp only [List.map_cons, List.sum_cons, ih, List.length_cons]
    push_cast
    ring

/-- C4 counterexample: with mean 0, ensemble size 2, draw columns (1) and (−1), and
clipping to `[0, 1]` active (transformed space), the ensemble returned by
`_gen_state_ensemble` has empirical column mean 1/2 ≠ 0 — clipping after recentering
moves the mean away from the input mean. -/
theorem gen_state_ensemble_mean_cex :
    colMean (genStateEnsembleVar (0 : Vec ℚ 1)
        [(fun _ => 1 : Vec ℚ 1), (fun _ => -1 : Vec ℚ 1)] (some (true, 0, 1)))
      ≠ (0 : Vec ℚ 1) := by
  intro h
  have h0 := congrFun h 0
  simp only [genStateEnsembleVar, colMean, List.map_cons, List.map_nil, List.sum_cons,
    List.sum_nil, List.length_cons, List.length_nil, Pi.zero_apply, Pi.one_apply,
    if_true] at h0
  norm_num at h0

/-- C4 (amended): for every mean and every draw with at least two columns, the
recentered ensemble produced by `_gen_state_ensemble` has, for each state variable,
empirical column mean exactly equal to the input mean provided bounds are absent; and
with bounds absent no clipping is applied — the result is exactly the recentered draw.
(With active clipping the mean can shift; see the counterexample.) -/
theorem gen_state_ensemble_mean {nx : ℕ} (mean : Vec ℚ nx) (temp : List (Vec ℚ nx))
    (h2 : 2 ≤ temp.length) :
    colMean (genStateEnsembleVar mean temp none) = mean
    ∧ genStateEnsembleVar mean temp none
        = temp.map (fun c => fun r => mean r + c r - colMean temp r) := by
  refine ⟨?_, rfl⟩
  funext r
  have hlen : (temp.length : ℚ) ≠ 0 := by
    have : 0 < temp.length := by omega
    exact_mod_cast Nat.pos_iff_ne_zero.1 this
  show ((genStateEnsembleVar mean temp none).map (fun c => c r)).sum
      / ((genStateEnsembleVar mean temp none).length : ℚ) = mean r
  unfold genStateEnsembleVar
  simp only [List.map_map, Function.comp_def, List.length_map]
  rw [sum_map_affine temp (fun c => c r) (mean r) (colMean temp r)]
  unfold colMean
  field_simp

/- ### The LineSearch controller: calc_update (linesearch.py lines 67-163) -/

/-- Configuration of the LineSearch controller (linesearch.py lines 36-46). -/
structure LsConfig (nx : ℕ) where
  alphaCov : ℚ
  normalize : Bool
  iterResampMax : ℕ
  shrinkFactor : ℚ
  bounds : Option (Vec ℚ nx × Vec ℚ nx)

/-- Mutable state of the LineSearch controller (linesearch.py lines 28-41). -/
structure LsState (nx : ℕ) where
  meanState : Vec ℚ nx
  cov : Mat ℚ nx
  pkFromLs : Option (Vec ℚ nx)
  objFuncValues : ℚ
  alpha : ℚ
  iteration : ℕ

/-- Oracles for the externally evaluated quantities of a search attempt, indexed by
the attempt number: the ensemble gradient returned by `self.jac` (a fresh random
ensemble per attempt), the ensemble Hessian returned by `self.hess`, and the
`scipy.optimize.line_search` outcome — `some (step_size, fnew, slope)` when a valid
float step size is found, `none` otherwise. -/
structure LsOracles (nx : ℕ) where
  jac : ℕ → Vec ℚ nx
  hess : ℕ → Mat ℚ nx
  ls : ℕ → Option (ℚ × ℚ × Vec ℚ nx)

/-- Infinity norm of a vector, `la.norm(pk, np.inf)` (linesearch.py line 96). -/
def infNormV {nx : ℕ} (v : Vec ℚ nx) : ℚ :=
  ((List.finRange nx).map (fun i => |v i|)).foldl max 0

/-- Infinity norm of a matrix, `la.norm(hessian, np.inf)` — the maximum absolute row
sum (linesearch.py line 95). -/
def infNormM {nx : ℕ} (A : Mat ℚ nx) : ℚ :=
  ((List.finRange nx).map
    (fun i => ((List.finRange nx).map (fun j => |A i j|)).sum)).foldl max 0

/-- Modelled from the spec: `ot.clip_state` (popt.misc_tools.optim_tools, outside this
repository) clips the state elementwise to the supplied bounds, and is the identity
when no bounds are given. -/
def clipState {nx : ℕ} (bounds : Option (Vec ℚ nx × Vec ℚ nx)) (x : Vec ℚ nx) :
    Vec ℚ nx :=
  match bounds with
  | none => x
  | some (lb, ub) => fun i => min (max (x i) (lb i)) (ub i)

/-- Hessian scaling of linesearch.py line 95: when `normalize` is set, divide the
Hessian by its infinity norm floored at `1e-12`. -/
def normalizeHess {nx : ℕ} (normalize : Bool) (h : Mat ℚ nx) : Mat ℚ nx :=
  if normalize then (max (infNormM h) (1 / 10 ^ 12))⁻¹ • h else h

/-- The `calc_update` method (linesearch.py lines 67-163).  `proj` models
`ot.get_sym_pos_semidef` (popt.misc_tools.optim_tools, outside this repository), the
projection applied to the updated covariance on line 128.  The returned triple is
(success flag, final controller state, number of line search attempts performed). -/
def calcUpdate {nx : ℕ} (cfg : LsConfig nx) (orc : LsOracles nx)
    (proj : Mat ℚ nx → Mat ℚ nx) (st : LsState nx) (iterResamp : ℕ) :
    Bool × LsState nx × ℕ :=
  let pk := st.pkFromLs.getD (orc.jac iterResamp)
  let hess := normalizeHess cfg.normalize (orc.hess iterResamp)
  let pkNorm := if cfg.normalize then infNormV pk else 1
  match orc.ls iterResamp with
  | some (stepSize, fnew, slope) =>
      (true,
        { meanState := clipState cfg.bounds (st.meanState - (stepSize / pkNorm) • pk)
          cov := proj (st.cov - cfg.alphaCov • hess)
          pkFromLs := some slope
          objFuncValues := fnew
          alpha := stepSize
          iteration := st.iteration + 1 }, 1)
  | none =>
      if h : iterResamp < cfg.iterResampMax then
        let res := calcUpdate cfg orc proj
          { st with pkFromLs := none, cov := cfg.shrinkFactor • st.cov } (iterResamp + 1)
        (res.1, res.2.1, res.2.2 + 1)
      else (false, st, 1)
termination_by cfg.iterResampMax - iterResamp
decreasing_by omega

/-- Symmetry of a matrix over the rationals. -/
def MatSym {nx : ℕ} (A : Mat ℚ nx) : Prop := ∀ i j, A i j = A j i

/-- Positive semidefiniteness of a matrix over the rationals. -/
def MatPSD {nx : ℕ} (A : Mat ℚ nx) : Prop :=
  ∀ v : Vec ℚ nx, 0 ≤ ∑ i, ∑ j, v i * A i j * v j

lemma calcUpdate_all_fail {nx : ℕ} (cfg : LsConfig nx) (orc : LsOracles nx)
    (proj : Mat ℚ nx → Mat ℚ nx) (hfail : ∀ k, orc.ls k = none) :
    ∀ d ir st, cfg.iterResampMax - ir = d → ir ≤ cfg.iterResampMax →
      calcUpdate cfg orc proj st ir
        = (false,
            { st with
                cov := cfg.shrinkFactor ^ (cfg.iterResampMax - ir) • st.cov
                pkFromLs := if ir < cfg.iterResampMax then none else st.pkFromLs },
            cfg.iterResampMax - ir + 1) := by
  intro d
  induction d with
  | zero =>
    intro ir st hd _
    have hir : ¬ ir < cfg.iterResampMax := by omega
    rw [calcUpdate, hfail ir]
    simp only [dif_neg hir, if_neg hir, hd, pow_zero, one_smul]
  | succ d ih =>
    intro ir st hd _
    have hlt : ir < cfg.iterResampMax := by omega
    have hsub : cfg.iterResampMax - ir = (cfg.iterResampMax - (ir + 1)) + 1 := by omega
    rw [calcUpdate, hfail ir]
    simp only [dif_pos hlt]
    rw [ih (ir + 1) _ (by omega) (by omega)]
    simp only [if_pos hlt, smul_smul, ite_self, hsub, pow_succ]

/-- C3: on a call to calc_update whose line search never returns a valid (float) step
size, the controller performs exactly `iter_resamp_max + 1` search attempts in total
and returns False; on each retry it sets `pk_from_ls` to None (so the final carried
gradient is None as soon as at least one retry happened) and multiplies the covariance
by `shrink_factor`, so the final covariance is `shrink_factor ^ iter_resamp_max` times
the initial one.  The recursion is bounded by the `iter_resamp` counter and never goes
further (`calcUpdate` is a total function). -/
theorem calc_update_never_valid {nx : ℕ} (cfg : LsConfig nx) (orc : LsOracles nx)
    (proj : Mat ℚ nx → Mat ℚ nx) (st : LsState nx)
    (hfail : ∀ k, orc.ls k = none) :
    (calcUpdate cfg orc proj st 0).1 = false
    ∧ (calcUpdate cfg orc proj st 0).2.2 = cfg.iterResampMax + 1
    ∧ (calcUpdate cfg orc proj st 0).2.1.cov
        = cfg.shrinkFactor ^ cfg.iterResampMax • st.cov
    ∧ (0 < cfg.iterResampMax →
        (calcUpdate cfg orc proj st 0).2.1.pkFromLs = none) := by
  have h := calcUpdate_all_fail cfg orc proj hfail (cfg.iterResampMax - 0) 0 st rfl
    (Nat.zero_le _)
  rw [h]
  refine ⟨rfl, by simp, by simp, ?_⟩
  intro hpos
  simp [if_pos hpos]

lemma matSym_smul {nx : ℕ} (c : ℚ) (A : Mat ℚ nx) (h : MatSym A) : MatSym (c • A) := by
  intro i j
  simp only [Pi.smul_apply, smul_eq_mul, h i j]

lemma matPSD_smul {nx : ℕ} (c : ℚ) (A : Mat ℚ nx) (hc : 0 ≤ c) (h : MatPSD A) :
    MatPSD (c • A) := by
  intro v
  have heq : ∑ i, ∑ j, v i * (c • A) i j * v j
      = c * ∑ i, ∑ j, v i * A i j * v j := by
    rw [Finset.mul_sum]
    refine Finset.sum_congr rfl (fun i _ => ?_)
    rw [Finset.mul_sum]
    refine Finset.sum_congr rfl (fun j _ => ?_)
    simp only [Pi.smul_apply, smul_eq_mul]
    ring
  rw [heq]
  exact mul_nonneg hc (h v)

lemma calcUpdate_cov_psd_aux {nx : ℕ} (cfg : LsConfig nx) (orc : LsOracles nx)
    (proj : Mat ℚ nx → Mat ℚ nx)
    (hproj : ∀ A, MatSym (proj A) ∧ MatPSD (proj A))
    (hshrink : 0 ≤ cfg.shrinkFactor) :
    ∀ d ir st, cfg.iterResampMax - ir = d →
      MatSym st.cov → MatPSD st.cov →
      MatSym (calcUpdate cfg orc proj st ir).2.1.cov
      ∧ MatPSD (calcUpdate cfg orc proj st ir).2.1.cov := by
  intro d
  induction d with
  | zero =>
    intro ir st hd hsym hpsd
    have hir : ¬ ir < cfg.iterResampMax := by omega
    rw [calcUpdate]
    cases hls : orc.ls ir with
    | some v =>
      obtain ⟨s, fn, sl⟩ := v
      exact hproj _
    | none =>
      simp only [dif_neg hir]
      exact ⟨hsym, hpsd⟩
  | succ d ih =>
    intro ir st hd hsym hpsd
    have hlt : ir < cfg.iterResampMax := by omega
    rw [calcUpdate]
    cases hls : orc.ls ir with
    | some v =>
      obtain ⟨s, fn, sl⟩ := v
      exact hproj _
    | none =>
      simp only [dif_pos hlt]
      exact ih (ir + 1) _ (by omega) (matSym_smul _ _ hsym)
        (matPSD_smul _ _ hshrink hpsd)

/-- C8: whenever a calc_update line search accepts a step, the working covariance is
updated to the projection `proj (C − alpha_cov · H)` of the shifted covariance onto the
symmetric positive-semidefinite cone, `H` being the (possibly infinity-norm-normalized)
Hessian; consequently, if the projection always yields a symmetric PSD matrix, the
shrink factor is positive and the initial covariance is symmetric PSD, the covariance
is still symmetric PSD after every calc_update call — shrink retries only rescale it by
the positive factor. -/
theorem calc_update_cov_psd {nx : ℕ} (cfg : LsConfig nx) (orc : LsOracles nx)
    (proj : Mat ℚ nx → Mat ℚ nx) (st : LsState nx) (ir : ℕ)
    (hproj : ∀ A, MatSym (proj A) ∧ MatPSD (proj A))
    (hshrink : 0 < cfg.shrinkFactor)
    (hsym : MatSym st.cov) (hpsd : MatPSD st.cov) :
    (∀ s fn sl, orc.ls ir = some (s, fn, sl) →
        (calcUpdate cfg orc proj st ir).2.1.cov
          = proj (st.cov
              - cfg.alphaCov • normalizeHess cfg.normalize (orc.hess ir)))
    ∧ MatSym (calcUpdate cfg orc proj st ir).2.1.cov
    ∧ MatPSD (calcUpdate cfg orc proj st ir).2.1.cov := by
  refine ⟨?_, calcUpdate_cov_psd_aux cfg orc proj hproj (le_of_lt hshrink)
    (cfg.iterResampMax - ir) ir st rfl hsym hpsd⟩
  intro s fn sl hls
  rw [calcUpdate, hls]

/- ### Witnesses: the claim theorems instantiated at concrete inputs -/

/-- Witness for C1 at a concrete single-level store of two members. -/
theorem gradient_per_level_witness :
    (let store : EnsembleStore 1 :=
      ⟨[(fun _ => 0 : Vec ℚ 1), (fun _ => 2 : Vec ℚ 1)], [[1, 3]], 0, none, none,
        fun _ _ => 0⟩
    0 < store.ensFuncValues.length
    ∧ 2 ≤ (store.ensFuncValues.getD 0 []).length
    ∧ (levelGradients store.biasFactor store.stateFuncValues (pertCols store.stateEns)
        store.ensFuncValues).getD 0 0
      = fun r =>
          (∑ i ∈ Finset.range (store.ensFuncValues.getD 0 []).length,
              (pertObjFunc store.biasFactor store.stateFuncValues
                  (store.ensFuncValues.getD 0 [])).getD i 0
                * (pertCols store.stateEns).getD
                    (levelStart store.ensFuncValues 0 + i) 0 r)
            / (((store.ensFuncValues.getD 0 []).length : ℚ) - 1)) := by
  refine ⟨by decide, by decide, gradient_per_level _ 0 (by decide) (by decide)⟩

/-- Witness for C2 at a concrete two-member store with a one-level multilevel
configuration. -/
theorem hessian_per_level_and_combination_witness :
    (let store : EnsembleStore 1 :=
      ⟨[(fun _ => 0 : Vec ℚ 1), (fun _ => 2 : Vec ℚ 1)], [[1, 3]], 0, none, some [1],
        fun _ _ => 0⟩
    store.biasFactor = none
    ∧ (store.ensFuncValues.map List.length).sum ≤ store.stateEns.length
    ∧ ((∀ l, l < store.ensFuncValues.length →
        2 ≤ (store.ensFuncValues.getD l []).length →
        (levelHessians store.stateFuncValues store.cov (pertCols store.stateEns)
            store.ensFuncValues).getD l 0
          = fun a b =>
              (∑ i ∈ Finset.range (store.ensFuncValues.getD l []).length,
                  ((store.ensFuncValues.getD l []).getD i 0 - store.stateFuncValues)
                    * ((pertCols store.stateEns).getD
                          (levelStart store.ensFuncValues l + i) 0 a
                        * (pertCols store.stateEns).getD
                            (levelStart store.ensFuncValues l + i) 0 b
                      - store.cov a b))
                / (((store.ensFuncValues.getD l []).length : ℚ) - 1))
    ∧ (∀ w, store.covWgt = some w → store.ensFuncValues.length ≤ w.length →
        hessian store = fun a b =>
          (∑ l ∈ Finset.range store.ensFuncValues.length,
              w.getD l 0
                * (levelHessians store.stateFuncValues store.cov (pertCols store.stateEns)
                    store.ensFuncValues).getD l 0 a b)
            / (store.stateEns.length : ℚ)))) := by
  refine ⟨rfl, by decide, hessian_per_level_and_combination _ rfl (by decide)⟩

/-- Witness for C3 at a concrete configuration with one resample retry allowed and a
line search that never returns a step. -/
theorem calc_update_never_valid_witness :
    (let cfg : LsConfig 1 := ⟨0, false, 1, 1 / 4, none⟩
    let orc : LsOracles 1 := ⟨fun _ => 0, fun _ => 0, fun _ => none⟩
    let st : LsState 1 := ⟨0, fun _ _ => 1, none, 0, 0, 0⟩
    (∀ k, orc.ls k = none)
    ∧ ((calcUpdate cfg orc (fun A => A) st 0).1 = false
    ∧ (calcUpdate cfg orc (fun A => A) st 0).2.2 = cfg.iterResampMax + 1
    ∧ (calcUpdate cfg orc (fun A => A) st 0).2.1.cov
        = cfg.shrinkFactor ^ cfg.iterResampMax • st.cov
    ∧ (0 < cfg.iterResampMax →
        (calcUpdate cfg orc (fun A => A) st 0).2.1.pkFromLs = none))) := by
  refine ⟨fun k => rfl, calc_update_never_valid _ _ _ _ (fun k => rfl)⟩

/-- Witness for C4 at mean 0 and a two-column draw. -/
theorem gen_state_ensemble_mean_witness :
    2 ≤ ([(fun _ => 1 : Vec ℚ 1), (fun _ => -1 : Vec ℚ 1)]).length
    ∧ (colMean (genStateEnsembleVar (0 : Vec ℚ 1)
          [(fun _ => 1 : Vec ℚ 1), (fun _ => -1 : Vec ℚ 1)] none) = (0 : Vec ℚ 1)
    ∧ genStateEnsembleVar (0 : Vec ℚ 1)
          [(fun _ => 1 : Vec ℚ 1), (fun _ => -1 : Vec ℚ 1)] none
        = [(fun _ => 1 : Vec ℚ 1), (fun _ => -1 : Vec ℚ 1)].map
            (fun c => fun r => (0 : Vec ℚ 1) r + c r
              - colMean [(fun _ => 1 : Vec ℚ 1), (fun _ => -1 : Vec ℚ 1)] r)) := by
  refine ⟨by decide, gen_state_ensemble_mean _ _ (by decide)⟩

/-- Witness for C5 with two levels of sizes 1 and 2 and survival fraction 1/2. -/
theorem calc_ensemble_weights_counts_witness :
    (([1, 2] : List ℕ) ≠ [] ∧ ([1, 2] : List ℕ).sum = 3)
    ∧ ((∀ l, l + 1 < ([1, 2] : List ℕ).length →
        (mlNeNewList 3 (1 / 2) (decide (1 < ([1, 2] : List ℕ).length)) 0 [1, 2]).getD l 0
          = npRound ((([1, 2] : List ℕ).getD l 0 : ℚ) * (1 / 2))
        ∧ (([1, 2] : List ℕ).getD l 0 : ℤ)
            - (mlNeNewList 3 (1 / 2) (decide (1 < ([1, 2] : List ℕ).length)) 0
                [1, 2]).getD l 0
          = (([1, 2] : List ℕ).getD l 0 : ℤ)
            - npRound ((([1, 2] : List ℕ).getD l 0 : ℚ) * (1 / 2)))
    ∧ (mlNeNewList 3 (1 / 2) (decide (1 < ([1, 2] : List ℕ).length)) 0 [1, 2]).sum
        = npRound ((3 : ℚ) * (1 / 2))) := by
  refine ⟨⟨by decide, by decide⟩, calc_ensemble_weights_counts 3 (1 / 2) [1, 2]
    (by decide) (by decide)⟩

/-- Witness for C6 at a two-member single level. -/
theorem single_level_reduction_witness :
    ([(1 : ℚ), 3] : List ℚ).length
        ≤ ([(fun _ => 0 : Vec ℚ 1), (fun _ => 2 : Vec ℚ 1)]).length
    ∧ (gradient ⟨[(fun _ => 0 : Vec ℚ 1), (fun _ => 2 : Vec ℚ 1)], [[1, 3]], 0, none,
          none, fun _ _ => 0⟩
      = (fun r =>
          (∑ i ∈ Finset.range ([(1 : ℚ), 3] : List ℚ).length,
              (pertObjFunc none 0 [1, 3]).getD i 0
                * (pertCols [(fun _ => 0 : Vec ℚ 1), (fun _ => 2 : Vec ℚ 1)]).getD i 0 r)
            / ((([(1 : ℚ), 3] : List ℚ).length : ℚ) - 1))
    ∧ hessian ⟨[(fun _ => 0 : Vec ℚ 1), (fun _ => 2 : Vec ℚ 1)], [[1, 3]], 0, none,
          none, fun _ _ => 0⟩
      = (fun a b =>
          (∑ i ∈ Finset.range ([(1 : ℚ), 3] : List ℚ).length,
              (([(1 : ℚ), 3] : List ℚ).getD i 0 - 0)
                * ((pertCols [(fun _ => 0 : Vec ℚ 1), (fun _ => 2 : Vec ℚ 1)]).getD i 0 a
                    * (pertCols [(fun _ => 0 : Vec ℚ 1),
                        (fun _ => 2 : Vec ℚ 1)]).getD i 0 b
                  - (fun _ _ => (0 : ℚ)) a b))
            / ((([(1 : ℚ), 3] : List ℚ).length : ℚ) - 1))
    ∧ (calcEnsembleWeights 1 (1 / 2) 1 none ([] : List (Vec ℝ 1))
          (fun _ _ _ _ => []) [(1, [(5 : ℝ)], none)]).1.1
      = matVec (levelParticles ([] : List (Vec ℝ 1)) 0 1
            (npRound ((1 : ℚ) * (1 / 2))).toNat none [(5 : ℝ)]).1
          (smcWeights 1
            (levelParticles ([] : List (Vec ℝ 1)) 0 1
              (npRound ((1 : ℚ) * (1 / 2))).toNat none [(5 : ℝ)]).2 1)) := by
  refine ⟨by decide, single_level_reduction _ _ _ _ _ (by decide) 1 (1 / 2) 1 _ _ 1 _ _⟩

/-- Witness for C7 at the value vector (1, 2) and inflation factor 1. -/
theorem smc_weights_normalized_witness :
    (([(1 : ℝ), 2] : List ℝ) ≠ [] ∧ (0 : ℝ) ≤ 1)
    ∧ ((∀ j, j < ([(1 : ℝ), 2] : List ℝ).length →
        0 < (smcWeights 1 [(1 : ℝ), 2] ([(1 : ℝ), 2] : List ℝ).length).getD j 0)
    ∧ (smcWeights 1 [(1 : ℝ), 2] ([(1 : ℝ), 2] : List ℝ).length).sum = 1
    ∧ (∀ i, i < ([(1 : ℝ), 2] : List ℝ).length →
        ([(1 : ℝ), 2] : List ℝ).getD i 0 = listMin [(1 : ℝ), 2] →
        ∀ j, j < ([(1 : ℝ), 2] : List ℝ).length →
          (smcWeights 1 [(1 : ℝ), 2] ([(1 : ℝ), 2] : List ℝ).length).getD j 0
            ≤ (smcWeights 1 [(1 : ℝ), 2] ([(1 : ℝ), 2] : List ℝ).length).getD i 0)) := by
  refine ⟨⟨List.cons_ne_nil 1 [2], by norm_num⟩,
    smc_weights_normalized 1 [(1 : ℝ), 2] (List.cons_ne_nil 1 [2]) (by norm_num)⟩

/-- Witness for C8 with the zero projection, shrink factor 1/4 and the zero initial
covariance. -/
theorem calc_update_cov_psd_witness :
    (let cfg : LsConfig 1 := ⟨0, false, 1, 1 / 4, none⟩
    let orc : LsOracles 1 := ⟨fun _ => 0, fun _ => 0, fun _ => none⟩
    let st : LsState 1 := ⟨0, fun _ _ => 0, none, 0, 0, 0⟩
    let proj : Mat ℚ 1 → Mat ℚ 1 := fun _ => fun _ _ => 0
    (∀ A, MatSym (proj A) ∧ MatPSD (proj A))
    ∧ 0 < cfg.shrinkFactor
    ∧ MatSym st.cov
    ∧ MatPSD st.cov
    ∧ ((∀ s fn sl, orc.ls 0 = some (s, fn, sl) →
        (calcUpdate cfg orc proj st 0).2.1.cov
          = proj (st.cov - cfg.alphaCov • normalizeHess cfg.normalize (orc.hess 0)))
    ∧ MatSym (calcUpdate cfg orc proj st 0).2.1.cov
    ∧ MatPSD (calcUpdate cfg orc proj st 0).2.1.cov)) := by
  refine ⟨fun A => ⟨fun i j => rfl, fun v => by simp⟩, by norm_num, fun i j => rfl,
    fun v => by simp,
    calc_update_cov_psd _ _ _ _ 0 (fun A => ⟨fun i j => rfl, fun v => by simp⟩)
      (by norm_num) (fun i j => rfl) (fun v => by simp)⟩

/-- Witness for C9 with two levels and unit combination weights. -/
theorem smc_sens_divided_by_num_samples_witness :
    ([(1, [(5 : ℝ)], none), (1, [(7 : ℝ)], none)]
        : List (ℕ × List ℝ × Option (List (Vec ℝ 1) × List ℝ × List ℕ))).length
      ≤ ([(1 : ℝ), 1] : List ℝ).length
    ∧ (calcEnsembleWeights 2 (1 / 2) 1 (some [(1 : ℝ), 1]) ([] : List (Vec ℝ 1))
        (fun _ _ _ _ => [])
        [(1, [(5 : ℝ)], none), (1, [(7 : ℝ)], none)]).1.1
      = ((2 : ℕ) : ℝ)⁻¹ •
          ∑ l ∈ Finset.range ([(1, [(5 : ℝ)], none), (1, [(7 : ℝ)], none)]
              : List (ℕ × List ℝ × Option (List (Vec ℝ 1) × List ℝ × List ℕ))).length,
            ([(1 : ℝ), 1] : List ℝ).getD l 0 •
              (smcLoop 2 (1 / 2) 1
                (decide (1 < ([(1, [(5 : ℝ)], none), (1, [(7 : ℝ)], none)]
                  : List (ℕ × List ℝ × Option (List (Vec ℝ 1) × List ℝ × List ℕ))).length))
                ([] : List (Vec ℝ 1)) (fun _ _ _ _ => []) 0 0 0
                [(1, [(5 : ℝ)], none), (1, [(7 : ℝ)], none)]).levelSens.getD l 0 := by
  refine ⟨by decide, smc_sens_divided_by_num_samples 2 (1 / 2) 1 _ _ _ _ (by decide)⟩

/-- Witness for C10 with two levels of size 1 and survival fraction 3/5. -/
theorem smc_first_round_seeding_witness :
    ([[(5 : ℝ)], [(7 : ℝ)]] : List (List ℝ)).length = ([1, 1] : List ℕ).length
    ∧ ((∀ l, l < ([1, 1] : List ℕ).length →
        ((smcLoop 2 (3 / 5) 1 true [(fun _ => 10 : Vec ℝ 1), (fun _ => 20 : Vec ℝ 1)]
            (fun _ _ _ _ => []) 0 0 0
            (List.zipWith (fun n J => (n, J, none)) [1, 1]
              [[(5 : ℝ)], [(7 : ℝ)]])).particles.getD l []
          = ([(fun _ => 10 : Vec ℝ 1), (fun _ => 20 : Vec ℝ 1)].drop
              (firstSeedOffset (3 / 5) [1, 1] l)).take (([1, 1] : List ℕ).getD l 0))
        ∧ ((smcLoop 2 (3 / 5) 1 true [(fun _ => 10 : Vec ℝ 1), (fun _ => 20 : Vec ℝ 1)]
            (fun _ _ _ _ => []) 0 0 0
            (List.zipWith (fun n J => (n, J, none)) [1, 1]
              [[(5 : ℝ)], [(7 : ℝ)]])).particleValues.getD l []
          = ([[(5 : ℝ)], [(7 : ℝ)]] : List (List ℝ)).getD l []))
    ∧ (∀ l, (npRound ((([1, 1] : List ℕ).getD l 0 : ℚ) * (3 / 5))).toNat
          < ([1, 1] : List ℕ).getD l 0 →
        firstSeedOffset (3 / 5) [1, 1] (l + 1)
          < firstSeedOffset (3 / 5) [1, 1] l + ([1, 1] : List ℕ).getD l 0)
    ∧ (∀ l, (3 : ℚ) / 5 ≤ 1 →
        (∃ k, k < l ∧ (npRound ((([1, 1] : List ℕ).getD k 0 : ℚ) * (3 / 5))).toNat
            < ([1, 1] : List ℕ).getD k 0) →
        firstSeedOffset (3 / 5) [1, 1] l
          < ∑ k ∈ Finset.range l, ([1, 1] : List ℕ).getD k 0)) := by
  refine ⟨rfl, smc_first_round_seeding 2 (3 / 5) 1 true _ _ [1, 1]
    [[(5 : ℝ)], [(7 : ℝ)]] rfl⟩

end PET
